import Mathlib

/-!
Verification of the arbitrage detection/backtesting core of the repository.

The embedding covers:
* `BalanceManager.simulate_trade` and `BalanceManager.__init__`
  (barbotine-arbitrage-bot-main/backtester/balance_manager.py);
* the replay loop `Backtester._simulate_trades_for_instance` and the
  per-threshold filter+sort of `Backtester._processing_loop`
  (analyzer/backtester/backtester.py);
* the opportunity detector `MultiExchangeArbitrageAnalyzer`
  (analyzer/arbitrage_analyzer.py);
* the aggregation in `StatisticsCollector`
  (analyzer/backtester/statistics_collector.py).

Python floats are embedded as exact rationals (ℚ); timestamps as integers;
wallet dictionaries as total functions `exchange → currency → ℚ` (a key that
was never written holds 0, matching the `.get(key, 0)` reads of the replay
loop).
-/

namespace Arb

/-- A market quote row, as consumed by the analyzer
(`timestamp`, `exchange`, `symbol`, `bestBid`, `bestAsk`). -/
structure Quote where
  exchange : String
  symbol : String
  timestamp : Int
  bestBid : ℚ
  bestAsk : ℚ
  deriving DecidableEq, Repr

/-- An arbitrage opportunity row, as produced by
`MultiExchangeArbitrageAnalyzer._find_pair_opportunities`. -/
structure Opportunity where
  timestamp : Int
  symbol : String
  buy_exchange : String
  buy_price : ℚ
  sell_exchange : String
  sell_price : ℚ
  profit_pct : ℚ
  deriving DecidableEq, Repr

/-- Python's `symbol.endswith('USDT')`: character-level suffix test. -/
def endsWithUSDT (s : String) : Bool :=
  decide (s.data.drop (s.data.length - 4) = ['U', 'S', 'D', 'T'])

/-- Python's `symbol[:-4]`: the symbol with its last four characters removed
(the base currency of a `...USDT` pair). -/
def baseOf (s : String) : String :=
  ⟨s.data.take (s.data.length - 4)⟩

/-- The balance state of one `BalanceManager`:
exchange → currency → balance. -/
def Balances : Type := String → String → ℚ

/-- Add `d` to the balance of currency `cur` on exchange `ex`
(one `wallet[cur] += d` / `-= d` statement of `simulate_trade`). -/
def adjust (bs : Balances) (ex cur : String) (d : ℚ) : Balances :=
  fun e c => if e = ex ∧ c = cur then bs e c + d else bs e c

/-- `BalanceManager.simulate_trade`: debits the buy-exchange quote wallet by
`amount * buy_price`, credits its base wallet net of the crypto commission,
debits the sell-exchange base wallet by `amount`, credits its quote wallet
with the revenue net of the USDT commission.  Returns `False` (and leaves the
state untouched) when the symbol is not a USDT pair.  The four `adjust`s are
applied in the source's statement order. -/
def simulate_trade (bs : Balances) (buy_exchange sell_exchange symbol : String)
    (buy_price sell_price amount_crypto commission_pct : ℚ) : Bool × Balances :=
  if endsWithUSDT symbol then
    let base_currency := baseOf symbol
    let cost_usdt := amount_crypto * buy_price
    let revenue_usdt := amount_crypto * sell_price
    let buy_commission_crypto := amount_crypto * (commission_pct / 100)
    let sell_commission_usdt := revenue_usdt * (commission_pct / 100)
    let bs1 := adjust bs buy_exchange "USDT" (-cost_usdt)
    let bs2 := adjust bs1 buy_exchange base_currency (amount_crypto - buy_commission_crypto)
    let bs3 := adjust bs2 sell_exchange base_currency (-amount_crypto)
    let bs4 := adjust bs3 sell_exchange "USDT" (revenue_usdt - sell_commission_usdt)
    (true, bs4)
  else (false, bs)

/-- The execution epsilon of `Backtester._simulate_trades_for_instance`:
a capped trade amount below `1e-9` crypto units is skipped. -/
def eps : ℚ := 1 / 1000000000

/-- The trade amount computed by `Backtester._simulate_trades_for_instance`:
`min(buy-wallet USDT / buy_price, sell-wallet base balance)`, with the
`buy_price > 0` guard of the source. -/
def tradeAmount (bs : Balances) (symbol : String) (o : Opportunity) : ℚ :=
  let max_buy_crypto :=
    if 0 < o.buy_price then bs o.buy_exchange "USDT" / o.buy_price else 0
  let max_sell_crypto := bs o.sell_exchange (baseOf symbol)
  min max_buy_crypto max_sell_crypto

/-- One iteration of the loop body of
`Backtester._simulate_trades_for_instance`, acting on the pair
(balances, executed-trade count). -/
def stepCount (commission_pct : ℚ) (symbol : String)
    (acc : Balances × Nat) (o : Opportunity) : Balances × Nat :=
  let amt := tradeAmount acc.1 symbol o
  if amt < eps then acc
  else
    let r := simulate_trade acc.1 o.buy_exchange o.sell_exchange symbol
      o.buy_price o.sell_price amt commission_pct
    (r.2, if r.1 then acc.2 + 1 else acc.2)

/-- `Backtester._simulate_trades_for_instance`: fold the loop body over the
chronological opportunity list. -/
def simulateTradesForInstance (opps : List Opportunity) (bs : Balances)
    (symbol : String) (commission_pct : ℚ) : Balances × Nat :=
  opps.foldl (stepCount commission_pct symbol) (bs, 0)

/-- Timestamp order on opportunities, used by the
`.sort('timestamp')` of `Backtester._processing_loop`. -/
def tsLE (a b : Opportunity) : Prop := a.timestamp ≤ b.timestamp

instance : DecidableRel tsLE := fun a b => inferInstanceAs (Decidable (a.timestamp ≤ b.timestamp))

instance : IsTotal Opportunity tsLE := ⟨fun a b => Int.le_total a.timestamp b.timestamp⟩

instance : IsTrans Opportunity tsLE := ⟨fun _ _ _ h h' => le_trans h h'⟩

/-- The per-threshold opportunity list of `Backtester._processing_loop`:
`opportunities_df.filter(pl.col('profit_pct') >= threshold).sort('timestamp')`. -/
def validOpportunities (threshold : ℚ) (opps : List Opportunity) : List Opportunity :=
  List.insertionSort tsLE (opps.filter (fun o => threshold ≤ o.profit_pct))

/-- One full simulation instance: filter by threshold, sort by timestamp,
replay.  Returns the final balances and the executed-trade count. -/
def runInstance (threshold : ℚ) (opps : List Opportunity) (bs : Balances)
    (symbol : String) (commission_pct : ℚ) : Balances × Nat :=
  simulateTradesForInstance (validOpportunities threshold opps) bs symbol commission_pct

/-- Balances are pointwise non-negative. -/
def NonnegBalances (bs : Balances) : Prop := ∀ e c, 0 ≤ bs e c

/-- Pointwise value of the balances after `simulate_trade` on a USDT symbol:
the old balance plus the four deltas of the trade, each gated on its cell. -/
theorem simulate_trade_apply (bs : Balances) (buy sell symbol : String)
    (pb ps a c : ℚ) (husdt : endsWithUSDT symbol = true) (e cu : String) :
    (simulate_trade bs buy sell symbol pb ps a c).2 e cu
      = bs e cu
        + (if e = buy ∧ cu = "USDT" then -(a * pb) else 0)
        + (if e = buy ∧ cu = baseOf symbol then a - a * (c / 100) else 0)
        + (if e = sell ∧ cu = baseOf symbol then -a else 0)
        + (if e = sell ∧ cu = "USDT" then a * ps - a * ps * (c / 100) else 0) := by
  simp only [simulate_trade, husdt, if_true, adjust]
  split_ifs <;> ring

/-- A replay step on an opportunity with a non-negative sell price between two
distinct exchanges keeps all balances non-negative (commission within
[0, 100] %): the cap `min(quote/price, base)` and the `1e-9` skip bound every
debit by the available balance. -/
theorem stepCount_preserves_nonneg (c : ℚ) (symbol : String)
    (hc0 : 0 ≤ c) (hc1 : c ≤ 100) (o : Opportunity)
    (hps : 0 ≤ o.sell_price) (hne : o.buy_exchange ≠ o.sell_exchange)
    (bs : Balances) (n : Nat) (hbs : NonnegBalances bs) :
    NonnegBalances (stepCount c symbol (bs, n) o).1 := by
  by_cases hskip : tradeAmount bs symbol o < eps
  · simpa [stepCount, hskip] using hbs
  · push_neg at hskip
    have hamt0 : 0 < tradeAmount bs symbol o :=
      lt_of_lt_of_le (by norm_num [eps]) hskip
    have hamt_eq : tradeAmount bs symbol o
        = min (if 0 < o.buy_price then bs o.buy_exchange "USDT" / o.buy_price else 0)
            (bs o.sell_exchange (baseOf symbol)) := rfl
    have hsell : tradeAmount bs symbol o ≤ bs o.sell_exchange (baseOf symbol) := by
      rw [hamt_eq]; exact min_le_right _ _
    have hmaxbuy : tradeAmount bs symbol o
        ≤ (if 0 < o.buy_price then bs o.buy_exchange "USDT" / o.buy_price else 0) := by
      rw [hamt_eq]; exact min_le_left _ _
    have hpb : 0 < o.buy_price := by
      by_contra hpb
      rw [if_neg hpb] at hmaxbuy
      linarith
    have hcost : tradeAmount bs symbol o * o.buy_price ≤ bs o.buy_exchange "USDT" := by
      rw [if_pos hpb] at hmaxbuy
      exact (le_div_iff₀ hpb).mp hmaxbuy
    have hgoal : NonnegBalances (simulate_trade bs o.buy_exchange o.sell_exchange symbol
        o.buy_price o.sell_price (tradeAmount bs symbol o) c).2 := by
      by_cases husdt : endsWithUSDT symbol = true
      · intro e cu
        rw [simulate_trade_apply bs o.buy_exchange o.sell_exchange symbol
          o.buy_price o.sell_price (tradeAmount bs symbol o) c husdt e cu]
        have hd1 : 0 ≤ tradeAmount bs symbol o - tradeAmount bs symbol o * (c / 100) :=
          by linarith [mul_nonneg hamt0.le (sub_nonneg.2 hc1)]
        have hd2 : 0 ≤ tradeAmount bs symbol o * o.sell_price
            - tradeAmount bs symbol o * o.sell_price * (c / 100) :=
          by linarith [mul_nonneg (mul_nonneg hamt0.le hps) (sub_nonneg.2 hc1)]
        rcases eq_or_ne e o.buy_exchange with rfl | heb
        · rcases eq_or_ne cu "USDT" with rfl | hcu
          · rcases eq_or_ne (baseOf symbol) "USDT" with hb | hb
            · rw [if_pos ⟨rfl, rfl⟩, if_pos ⟨rfl, hb.symm⟩,
                if_neg (fun h => hne h.1), if_neg (fun h => hne h.1)]
              linarith [hcost, hd1]
            · rw [if_pos ⟨rfl, rfl⟩, if_neg (fun h => hb h.2.symm),
                if_neg (fun h => hne h.1), if_neg (fun h => hne h.1)]
              linarith [hcost]
          · rcases eq_or_ne cu (baseOf symbol) with rfl | hcb
            · rw [if_neg (fun h => hcu h.2), if_pos ⟨rfl, rfl⟩,
                if_neg (fun h => hne h.1), if_neg (fun h => hne h.1)]
              linarith [hbs o.buy_exchange (baseOf symbol), hd1]
            · rw [if_neg (fun h => hcu h.2), if_neg (fun h => hcb h.2),
                if_neg (fun h => hne h.1), if_neg (fun h => hne h.1)]
              simpa using hbs o.buy_exchange cu
        · rcases eq_or_ne e o.sell_exchange with rfl | hes
          · rcases eq_or_ne cu "USDT" with rfl | hcu
            · rcases eq_or_ne (baseOf symbol) "USDT" with hb | hb
              · rw [hb] at hsell
                rw [if_neg (fun h => heb h.1), if_neg (fun h => heb h.1),
                  if_pos ⟨rfl, hb.symm⟩, if_pos ⟨rfl, rfl⟩]
                linarith [hsell, hd2]
              · rw [if_neg (fun h => heb h.1), if_neg (fun h => heb h.1),
                  if_neg (fun h => hb h.2.symm), if_pos ⟨rfl, rfl⟩]
                linarith [hbs o.sell_exchange "USDT", hd2]
            · rcases eq_or_ne cu (baseOf symbol) with rfl | hcb
              · rw [if_neg (fun h => heb h.1), if_neg (fun h => heb h.1),
                  if_pos ⟨rfl, rfl⟩, if_neg (fun h => hcu h.2)]
                linarith [hsell]
              · rw [if_neg (fun h => heb h.1), if_neg (fun h => heb h.1),
                  if_neg (fun h => hcb h.2), if_neg (fun h => hcu h.2)]
                simpa using hbs o.sell_exchange cu
          · rw [if_neg (fun h => heb h.1), if_neg (fun h => heb h.1),
              if_neg (fun h => hes h.1), if_neg (fun h => hes h.1)]
            simpa using hbs e cu
      · have hid : (simulate_trade bs o.buy_exchange o.sell_exchange symbol
            o.buy_price o.sell_price (tradeAmount bs symbol o) c).2 = bs := by
          simp [simulate_trade, husdt]
        rwa [hid]
    have hstep : (stepCount c symbol (bs, n) o).1
        = (simulate_trade bs o.buy_exchange o.sell_exchange symbol
            o.buy_price o.sell_price (tradeAmount bs symbol o) c).2 := by
      simp [stepCount, not_lt.2 hskip]
    rw [hstep]
    exact hgoal

/-- Replaying any opportunity list whose entries have non-negative sell prices
and distinct buy/sell exchanges preserves non-negativity of all balances. -/
theorem foldl_stepCount_nonneg (c : ℚ) (symbol : String)
    (hc0 : 0 ≤ c) (hc1 : c ≤ 100) (l : List Opportunity) :
    ∀ (bs : Balances) (n : Nat),
      (∀ o ∈ l, 0 ≤ o.sell_price ∧ o.buy_exchange ≠ o.sell_exchange) →
      NonnegBalances bs →
      NonnegBalances ((l.foldl (stepCount c symbol) (bs, n)).1) := by
  induction l with
  | nil => intro bs n _ hbs; exact hbs
  | cons o l ih =>
    intro bs n hl hbs
    rw [List.foldl_cons]
    have hstep := stepCount_preserves_nonneg c symbol hc0 hc1 o
      (hl o (List.mem_cons_self o l)).1 (hl o (List.mem_cons_self o l)).2 bs n hbs
    have := ih (stepCount c symbol (bs, n) o).1 (stepCount c symbol (bs, n) o).2
      (fun o' ho' => hl o' (List.mem_cons_of_mem o ho')) hstep
    simpa using this

/-- C1: starting from any non-negative funding state, after the replay loop of
a `(symbol, threshold)` instance has processed any prefix of its (filtered,
chronologically sorted) opportunity list, every currency balance in every
exchange wallet is still non-negative.  Opportunities are assumed to have a
non-negative sell price and distinct buy/sell exchanges, as the detector
guarantees; the commission percentage lies in [0, 100]. -/
theorem no_negative_balances (symbol : String) (c θ : ℚ)
    (hc0 : 0 ≤ c) (hc1 : c ≤ 100) (opps : List Opportunity)
    (hops : ∀ o ∈ opps, 0 ≤ o.sell_price ∧ o.buy_exchange ≠ o.sell_exchange)
    (bs0 : Balances) (h0 : NonnegBalances bs0)
    (pre suf : List Opportunity)
    (hsplit : validOpportunities θ opps = pre ++ suf) :
    NonnegBalances (simulateTradesForInstance pre bs0 symbol c).1 := by
  have hpre : ∀ o ∈ pre, 0 ≤ o.sell_price ∧ o.buy_exchange ≠ o.sell_exchange := by
    intro o ho
    apply hops
    have h1 : o ∈ validOpportunities θ opps := by
      rw [hsplit]; exact List.mem_append_left _ ho
    have h2 := (List.perm_insertionSort tsLE
      (opps.filter (fun o => θ ≤ o.profit_pct))).mem_iff.mp h1
    exact (List.mem_filter.mp h2).1
  exact foldl_stepCount_nonneg c symbol hc0 hc1 pre bs0 0 hpre h0

/-- A concrete opportunity used by witnesses. -/
def oppW : Opportunity :=
  { timestamp := 1, symbol := "ETHUSDT", buy_exchange := "A", buy_price := 10,
    sell_exchange := "B", sell_price := 11, profit_pct := 12 }

/-- Witness for `no_negative_balances` at a concrete instance. -/
theorem no_negative_balances_witness :
    ((0:ℚ) ≤ 1/50 ∧ (1:ℚ)/50 ≤ 100) ∧
    0 ≤ (simulateTradesForInstance [oppW] (fun _ _ => 1000) "ETHUSDT" (1/50)).1 "A" "USDT" := by
  have h := no_negative_balances "ETHUSDT" (1/50) 0 (by norm_num) (by norm_num)
    [oppW] (by decide) (fun _ _ => 1000) (fun _ _ => by norm_num)
    [oppW] [] (by decide)
  exact ⟨⟨by norm_num, by norm_num⟩, h "A" "USDT"⟩

/-- C2: executing one trade of amount `a` at prices `pb`/`ps` with commission `c`
on a USDT symbol whose base currency is distinct from USDT, between two distinct
exchanges, debits the buy quote wallet by `a * pb`, credits the buy base wallet
by `a * (1 - c/100)`, debits the sell base wallet by `a`, credits the sell
quote wallet by `a * ps * (1 - c/100)`, and leaves every other balance
unchanged.  The call also reports success. -/
theorem trade_postcondition (bs : Balances) (buy sell symbol : String)
    (pb ps a c : ℚ)
    (hsym : endsWithUSDT symbol = true)
    (hne : buy ≠ sell)
    (hbase : baseOf symbol ≠ "USDT") :
    (simulate_trade bs buy sell symbol pb ps a c).1 = true ∧
    (simulate_trade bs buy sell symbol pb ps a c).2 buy "USDT"
      = bs buy "USDT" - a * pb ∧
    (simulate_trade bs buy sell symbol pb ps a c).2 buy (baseOf symbol)
      = bs buy (baseOf symbol) + a * (1 - c / 100) ∧
    (simulate_trade bs buy sell symbol pb ps a c).2 sell (baseOf symbol)
      = bs sell (baseOf symbol) - a ∧
    (simulate_trade bs buy sell symbol pb ps a c).2 sell "USDT"
      = bs sell "USDT" + a * ps * (1 - c / 100) ∧
    ∀ e cur, (e ≠ buy ∧ e ≠ sell) ∨ (cur ≠ "USDT" ∧ cur ≠ baseOf symbol) →
      (simulate_trade bs buy sell symbol pb ps a c).2 e cur = bs e cur := by
  have hbase' : "USDT" ≠ baseOf symbol := fun h => hbase h.symm
  refine ⟨?_, ?_, ?_, ?_, ?_, ?_⟩
  · simp [simulate_trade, hsym]
  · simp [simulate_trade, adjust, hsym, hne, hbase', Ne.symm hne]; ring
  · simp [simulate_trade, adjust, hsym, hne, hbase, Ne.symm hne]; ring
  · simp [simulate_trade, adjust, hsym, hne, hbase, Ne.symm hne]; ring
  · simp [simulate_trade, adjust, hsym, hne, hbase', Ne.symm hne]; ring
  · intro e cur hcur
    rcases hcur with ⟨h1, h2⟩ | ⟨h1, h2⟩ <;>
      simp [simulate_trade, adjust, hsym, h1, h2]

/-- Witness for `trade_postcondition` at a concrete trade. -/
theorem trade_postcondition_witness :
    (endsWithUSDT "ETHUSDT" = true) ∧ ("A" : String) ≠ "B" ∧
    (baseOf "ETHUSDT" ≠ "USDT") ∧
    (simulate_trade (fun _ _ => 100) "A" "B" "ETHUSDT" 10 11 2 5).2 "A" "USDT"
      = 100 - 2 * 10 ∧
    (simulate_trade (fun _ _ => 100) "A" "B" "ETHUSDT" 10 11 2 5).2 "C" "USDT"
      = 100 := by
  have h := trade_postcondition (fun _ _ => 100) "A" "B" "ETHUSDT" 10 11 2 5
    (by decide) (by decide) (by decide)
  exact ⟨by decide, by decide, by decide, h.2.1, h.2.2.2.2.2 "C" "USDT" (by decide)⟩

/-- A replay iteration with capped amount below the epsilon is a no-op. -/
theorem stepCount_skip (c : ℚ) (symbol : String) (bs : Balances) (n : Nat)
    (o : Opportunity) (h : tradeAmount bs symbol o < eps) :
    stepCount c symbol (bs, n) o = (bs, n) := by
  simp [stepCount, h]

/-- A replay iteration at or above the epsilon executes `simulate_trade` with
the capped amount and counts the trade when `simulate_trade` succeeds. -/
theorem stepCount_exec (c : ℚ) (symbol : String) (bs : Balances) (n : Nat)
    (o : Opportunity) (h : ¬tradeAmount bs symbol o < eps) :
    stepCount c symbol (bs, n) o
      = ((simulate_trade bs o.buy_exchange o.sell_exchange symbol
           o.buy_price o.sell_price (tradeAmount bs symbol o) c).2,
         if endsWithUSDT symbol then n + 1 else n) := by
  by_cases husdt : endsWithUSDT symbol = true <;>
    simp [stepCount, h, simulate_trade, husdt]

/-- C3: the replay of a `(symbol, threshold)` instance processes exactly the
opportunities with `profit_pct ≥ threshold` (as a multiset), sorted by
timestamp ascending; processing is strictly sequential, so the balances seen
by any opportunity reflect all prior fills; an opportunity whose capped amount
is below `1e-9` is skipped with no state change and no error; an opportunity
at or above the epsilon executes `simulate_trade` with the capped amount. -/
theorem replay_order_and_sizing (θ c : ℚ) (symbol : String) (opps : List Opportunity) :
    (validOpportunities θ opps).Sorted tsLE ∧
    List.Perm (validOpportunities θ opps) (opps.filter (fun o => θ ≤ o.profit_pct)) ∧
    (∀ (pre suf : List Opportunity) (bs : Balances) (n : Nat),
      (pre ++ suf).foldl (stepCount c symbol) (bs, n)
        = suf.foldl (stepCount c symbol) (pre.foldl (stepCount c symbol) (bs, n))) ∧
    (∀ (bs : Balances) (n : Nat) (o : Opportunity),
      tradeAmount bs symbol o < eps → stepCount c symbol (bs, n) o = (bs, n)) ∧
    (∀ (bs : Balances) (n : Nat) (o : Opportunity),
      ¬tradeAmount bs symbol o < eps →
      stepCount c symbol (bs, n) o
        = ((simulate_trade bs o.buy_exchange o.sell_exchange symbol
             o.buy_price o.sell_price (tradeAmount bs symbol o) c).2,
           if endsWithUSDT symbol then n + 1 else n)) := by
  exact ⟨List.sorted_insertionSort tsLE _, List.perm_insertionSort tsLE _,
    fun pre suf bs n => List.foldl_append _ _ pre suf,
    fun bs n o h => stepCount_skip c symbol bs n o h,
    fun bs n o h => stepCount_exec c symbol bs n o h⟩

/-- Witness for `replay_order_and_sizing`: a skipped opportunity (empty
wallets) leaves the accumulator untouched. -/
theorem replay_order_and_sizing_witness :
    (tradeAmount (fun _ _ => 0) "ETHUSDT" oppW < eps) ∧
    stepCount (1/50) "ETHUSDT" (fun _ _ => 0, 5) oppW = (fun _ _ => 0, 5) := by
  have hamt : tradeAmount (fun _ _ => 0) "ETHUSDT" oppW < eps := by
    norm_num [tradeAmount, oppW, eps, min_def]
  exact ⟨hamt, (replay_order_and_sizing 0 (1/50) "ETHUSDT" [oppW]).2.2.2.1
    (fun _ _ => 0) 5 oppW hamt⟩

/-- Total balance of one currency across a list of exchanges. -/
def totalCur (exs : List String) (bs : Balances) (cur : String) : ℚ :=
  (exs.map (fun e => bs e cur)).sum

/-- Adjusting one wallet cell changes the cross-exchange total of a currency
by the delta when the currency matches, and not at all otherwise. -/
theorem totalCur_adjust (bs : Balances) (ex0 cur0 : String) (d : ℚ) (cur : String) :
    ∀ exs : List String, exs.Nodup → ex0 ∈ exs →
      totalCur exs (adjust bs ex0 cur0 d) cur
        = totalCur exs bs cur + (if cur = cur0 then d else 0)
  | [], _, hmem => absurd hmem (List.not_mem_nil _)
  | x :: xs, hnd, hmem => by
    rcases List.mem_cons.mp hmem with rfl | hx
    · have hxnot : ex0 ∉ xs := (List.nodup_cons.mp hnd).1
      have htail : ∀ e ∈ xs, adjust bs ex0 cur0 d e cur = bs e cur := by
        intro e he
        have hne : ¬(e = ex0 ∧ cur = cur0) := fun h => hxnot (h.1 ▸ he)
        simp [adjust, hne]
      have hhead : adjust bs ex0 cur0 d ex0 cur
          = bs ex0 cur + (if cur = cur0 then d else 0) := by
        by_cases h : cur = cur0 <;> simp [adjust, h]
      simp only [totalCur, List.map_cons, List.sum_cons] at *
      rw [List.map_congr_left htail, hhead]
      ring
    · have hxx : ¬(x = ex0 ∧ cur = cur0) := by
        rintro ⟨rfl, -⟩
        exact (List.nodup_cons.mp hnd).1 hx
      have hhead : adjust bs ex0 cur0 d x cur = bs x cur := by simp [adjust, hxx]
      have ih := totalCur_adjust bs ex0 cur0 d cur xs (List.nodup_cons.mp hnd).2 hx
      simp only [totalCur, List.map_cons, List.sum_cons] at *
      rw [hhead, ih]
      ring

/-- One executed leg of an arbitrage trade (parameters of one
`simulate_trade` call). -/
structure TradeLeg where
  buy_exchange : String
  sell_exchange : String
  buy_price : ℚ
  sell_price : ℚ
  amount : ℚ
  deriving DecidableEq, Repr

/-- Apply a sequence of trades through `simulate_trade`. -/
def applyTrades (symbol : String) (c : ℚ) (bs : Balances) (l : List TradeLeg) : Balances :=
  l.foldl (fun b t => (simulate_trade b t.buy_exchange t.sell_exchange symbol
    t.buy_price t.sell_price t.amount c).2) bs

/-- One trade moves the cross-exchange currency totals by exactly the
commission (base) and the spread net of commission (quote). -/
theorem simulate_trade_totals (exs : List String) (hnd : exs.Nodup) (symbol : String)
    (c : ℚ) (hsym : endsWithUSDT symbol = true) (hbase : baseOf symbol ≠ "USDT")
    (bs : Balances) (buy sell : String) (pb ps a : ℚ)
    (hbuy : buy ∈ exs) (hsell : sell ∈ exs) :
    totalCur exs (simulate_trade bs buy sell symbol pb ps a c).2 (baseOf symbol)
      = totalCur exs bs (baseOf symbol) - a * c / 100 ∧
    totalCur exs (simulate_trade bs buy sell symbol pb ps a c).2 "USDT"
      = totalCur exs bs "USDT" + a * (ps * (1 - c / 100) - pb) := by
  have husdtb : ("USDT" : String) ≠ baseOf symbol := fun h => hbase h.symm
  have hval : (simulate_trade bs buy sell symbol pb ps a c).2
      = adjust (adjust (adjust (adjust bs buy "USDT" (-(a * pb)))
          buy (baseOf symbol) (a - a * (c / 100)))
          sell (baseOf symbol) (-a))
          sell "USDT" (a * ps - a * ps * (c / 100)) := by
    simp only [simulate_trade, hsym, if_true]
  constructor
  · rw [hval,
      totalCur_adjust _ sell "USDT" _ _ exs hnd hsell,
      totalCur_adjust _ sell (baseOf symbol) _ _ exs hnd hsell,
      totalCur_adjust _ buy (baseOf symbol) _ _ exs hnd hbuy,
      totalCur_adjust _ buy "USDT" _ _ exs hnd hbuy,
      if_neg hbase, if_pos rfl, if_pos rfl, if_neg hbase]
    ring
  · rw [hval,
      totalCur_adjust _ sell "USDT" _ _ exs hnd hsell,
      totalCur_adjust _ sell (baseOf symbol) _ _ exs hnd hsell,
      totalCur_adjust _ buy (baseOf symbol) _ _ exs hnd hbuy,
      totalCur_adjust _ buy "USDT" _ _ exs hnd hbuy,
      if_pos rfl, if_neg husdtb, if_neg husdtb, if_pos rfl]
    ring

/-- C4: per executed trade, the cross-exchange base-currency total changes by
exactly `-amount * commission/100` and the quote-currency total by exactly
`amount * (sell_price * (1 - commission/100) - buy_price)`; over any sequence
of executed trades the totals change by exactly the sums of those per-trade
deltas — value is neither created nor destroyed beyond fees and spread. -/
theorem balance_conservation (exs : List String) (hnd : exs.Nodup) (symbol : String)
    (c : ℚ) (hsym : endsWithUSDT symbol = true) (hbase : baseOf symbol ≠ "USDT") :
    (∀ (bs : Balances) (buy sell : String) (pb ps a : ℚ), buy ∈ exs → sell ∈ exs →
      totalCur exs (simulate_trade bs buy sell symbol pb ps a c).2 (baseOf symbol)
        = totalCur exs bs (baseOf symbol) - a * c / 100 ∧
      totalCur exs (simulate_trade bs buy sell symbol pb ps a c).2 "USDT"
        = totalCur exs bs "USDT" + a * (ps * (1 - c / 100) - pb)) ∧
    (∀ (bs : Balances) (l : List TradeLeg),
      (∀ t ∈ l, t.buy_exchange ∈ exs ∧ t.sell_exchange ∈ exs) →
      totalCur exs (applyTrades symbol c bs l) (baseOf symbol)
        = totalCur exs bs (baseOf symbol) - (l.map (fun t => t.amount * c / 100)).sum ∧
      totalCur exs (applyTrades symbol c bs l) "USDT"
        = totalCur exs bs "USDT"
          + (l.map (fun t => t.amount * (t.sell_price * (1 - c / 100) - t.buy_price))).sum) := by
  constructor
  · intro bs buy sell pb ps a hbuy hsell
    exact simulate_trade_totals exs hnd symbol c hsym hbase bs buy sell pb ps a hbuy hsell
  · intro bs l
    induction l generalizing bs with
    | nil => intro _; simp [applyTrades]
    | cons t l ih =>
      intro hl
      have hstep := simulate_trade_totals exs hnd symbol c hsym hbase bs
        t.buy_exchange t.sell_exchange t.buy_price t.sell_price t.amount
        (hl t (List.mem_cons_self t l)).1 (hl t (List.mem_cons_self t l)).2
      have htail := ih ((simulate_trade bs t.buy_exchange t.sell_exchange symbol
        t.buy_price t.sell_price t.amount c).2) (fun t' ht' => hl t' (List.mem_cons_of_mem t ht'))
      constructor
      · have h1 := htail.1
        simp only [applyTrades, List.foldl_cons] at *
        rw [h1, hstep.1, List.map_cons, List.sum_cons]
        ring
      · have h2 := htail.2
        simp only [applyTrades, List.foldl_cons] at *
        rw [h2, hstep.2, List.map_cons, List.sum_cons]
        ring

/-- Witness for `balance_conservation` at a concrete trade. -/
theorem balance_conservation_witness :
    (["A", "B"] : List String).Nodup ∧
    totalCur ["A", "B"]
        (simulate_trade (fun _ _ => 100) "A" "B" "ETHUSDT" 10 11 2 (1/50)).2
        (baseOf "ETHUSDT")
      = totalCur ["A", "B"] (fun _ _ => 100) (baseOf "ETHUSDT") - 2 * (1/50) / 100 := by
  have h := (balance_conservation ["A", "B"] (by decide) "ETHUSDT" (1/50)
    (by decide) (by decide)).1 (fun _ _ => 100) "A" "B" 10 11 2
    (by decide) (by decide)
  exact ⟨by decide, h.1⟩

/-- Timestamp order on quotes (the `.sort('timestamp')` of
`find_maker_taker_opportunities`). -/
def qLE (a b : Quote) : Prop := a.timestamp ≤ b.timestamp

instance : DecidableRel qLE := fun a b => inferInstanceAs (Decidable (a.timestamp ≤ b.timestamp))

instance : IsTotal Quote qLE := ⟨fun a b => Int.le_total a.timestamp b.timestamp⟩

instance : IsTrans Quote qLE := ⟨fun _ _ _ h h' => le_trans h h'⟩

/-- Polars `join_asof(..., on='timestamp')` with the default backward
strategy: the last row of the (timestamp-sorted) right frame whose timestamp
is at or before `t`, or `none` when no such row exists. -/
def asofFind (df_right : List Quote) (t : Int) : Option Quote :=
  df_right.foldl (fun acc r => if r.timestamp ≤ t then some r else acc) none

/-- The opportunity `_find_pair_opportunities` produces from one left row:
`none` when the backward join finds no right row, when either bid is
non-positive, when the left bid does not exceed the right bid, or when the
net profit is not positive; otherwise the selected output row with
`buy = right` (at the right bid) and `sell = left` (at the left bid). -/
def oppOfRow (df_right : List Quote) (exchange_left exchange_right : String)
    (commission_pct : ℚ) (ql : Quote) : Option Opportunity :=
  match asofFind df_right ql.timestamp with
  | none => none
  | some qr =>
    if 0 < ql.bestBid ∧ 0 < qr.bestBid ∧ qr.bestBid < ql.bestBid then
      let profit_pct := (ql.bestBid - qr.bestBid) / qr.bestBid * 100 - commission_pct
      if 0 < profit_pct then
        some { timestamp := ql.timestamp, symbol := ql.symbol,
               buy_exchange := exchange_right, buy_price := qr.bestBid,
               sell_exchange := exchange_left, sell_price := ql.bestBid,
               profit_pct := profit_pct }
      else none
    else none

/-- `_find_pair_opportunities` over timestamp-sorted frames. -/
def findPairOpportunities (df_left df_right : List Quote)
    (exchange_left exchange_right : String) (commission_pct : ℚ) : List Opportunity :=
  df_left.filterMap (oppOfRow df_right exchange_left exchange_right commission_pct)

/-- `itertools.combinations(unique_exchanges, 2)`. -/
def pairsOf {α : Type} : List α → List (α × α)
  | [] => []
  | x :: xs => (xs.map fun y => (x, y)) ++ pairsOf xs

/-- `spread_data['exchange'].unique()` (polars does not fix the order;
the embedding keeps first occurrences). -/
def uniqueExchanges (spread : List Quote) : List String :=
  (spread.map (fun q => q.exchange)).dedup

/-- One exchange's rows, sorted by timestamp
(`spread_data.filter(...) .sort('timestamp')`). -/
def exchangeRows (spread : List Quote) (ex : String) : List Quote :=
  List.insertionSort qLE (spread.filter (fun q => q.exchange = ex))

/-- `find_maker_taker_opportunities`: for every unordered pair of exchanges,
join in both directions and concatenate all resulting opportunity frames. -/
def findMakerTaker (spread : List Quote) (commission_pct : ℚ) : List Opportunity :=
  if spread = [] then []
  else if (uniqueExchanges spread).length < 2 then []
  else
    (pairsOf (uniqueExchanges spread)).foldl
      (fun acc p =>
        let df_a := exchangeRows spread p.1
        let df_b := exchangeRows spread p.2
        if df_a = [] ∨ df_b = [] then acc
        else acc ++ findPairOpportunities df_a df_b p.1 p.2 commission_pct
          ++ findPairOpportunities df_b df_a p.2 p.1 commission_pct) []

/-- One left row's contribution, fully characterised. -/
theorem oppOfRow_some (df_right : List Quote) (exL exR : String) (c : ℚ)
    (ql : Quote) (o : Opportunity) (h : oppOfRow df_right exL exR c ql = some o) :
    ∃ qr, asofFind df_right ql.timestamp = some qr ∧
      o.timestamp = ql.timestamp ∧ o.symbol = ql.symbol ∧
      o.buy_exchange = exR ∧ o.buy_price = qr.bestBid ∧
      o.sell_exchange = exL ∧ o.sell_price = ql.bestBid ∧
      o.profit_pct = (ql.bestBid - qr.bestBid) / qr.bestBid * 100 - c ∧
      0 < ql.bestBid ∧ 0 < qr.bestBid ∧ qr.bestBid < ql.bestBid ∧
      0 < o.profit_pct := by
  cases hash : asofFind df_right ql.timestamp with
  | none => simp [oppOfRow, hash] at h
  | some qr =>
    simp only [oppOfRow, hash] at h
    by_cases hcond : 0 < ql.bestBid ∧ 0 < qr.bestBid ∧ qr.bestBid < ql.bestBid
    · rw [if_pos hcond] at h
      by_cases hp : 0 < (ql.bestBid - qr.bestBid) / qr.bestBid * 100 - c
      · rw [if_pos hp] at h
        injection h with h
        subst h
        exact ⟨qr, rfl, rfl, rfl, rfl, rfl, rfl, rfl, rfl,
          hcond.1, hcond.2.1, hcond.2.2, hp⟩
      · rw [if_neg hp] at h; cases h
    · rw [if_neg hcond] at h; cases h

theorem asofFind_append_single (l : List Quote) (r : Quote) (t : Int) :
    asofFind (l ++ [r]) t = if r.timestamp ≤ t then some r else asofFind l t := by
  simp [asofFind, List.foldl_append]

/-- On a timestamp-sorted frame, the backward join returns the row with the
greatest timestamp at or before `t`, and `none` exactly when every row is
strictly later than `t`. -/
theorem asofFind_spec (t : Int) :
    ∀ df : List Quote, df.Sorted qLE →
      (∀ qr, asofFind df t = some qr →
        qr ∈ df ∧ qr.timestamp ≤ t ∧
        ∀ q ∈ df, q.timestamp ≤ t → q.timestamp ≤ qr.timestamp) ∧
      (asofFind df t = none → ∀ q ∈ df, t < q.timestamp) := by
  intro df
  induction df using List.reverseRecOn with
  | nil =>
    intro _
    constructor
    · intro qr h
      simp [asofFind] at h
    · intro _ q hq
      cases hq
  | append_singleton l r ih =>
    intro hsorted
    rw [List.Sorted, List.pairwise_append] at hsorted
    have hsl : l.Sorted qLE := hsorted.1
    have hlr : ∀ q ∈ l, q.timestamp ≤ r.timestamp :=
      fun q hq => hsorted.2.2 q hq r (by simp)
    by_cases hr : r.timestamp ≤ t
    · refine ⟨?_, ?_⟩
      · intro qr h
        rw [asofFind_append_single, if_pos hr] at h
        injection h with h
        subst h
        refine ⟨List.mem_append_right _ (by simp), hr, ?_⟩
        intro q hq _
        rcases List.mem_append.mp hq with hql | hqr
        · exact hlr q hql
        · simp at hqr; subst hqr; exact le_refl _
      · intro h
        rw [asofFind_append_single, if_pos hr] at h
        cases h
    · obtain ⟨ih1, ih2⟩ := ih hsl
      refine ⟨?_, ?_⟩
      · intro qr h
        rw [asofFind_append_single, if_neg hr] at h
        obtain ⟨hmem, hle, hgreat⟩ := ih1 qr h
        refine ⟨List.mem_append_left _ hmem, hle, ?_⟩
        intro q hq hqt
        rcases List.mem_append.mp hq with hql | hqr
        · exact hgreat q hql hqt
        · simp at hqr; subst hqr; exact absurd hqt hr
      · intro h q hq
        rw [asofFind_append_single, if_neg hr] at h
        rcases List.mem_append.mp hq with hql | hqr
        · exact ih2 h q hql
        · simp at hqr; subst hqr; exact lt_of_not_le hr

/-- C6: every opportunity a left quote at timestamp `t` contributes is
computed against the right-frame quote found by the backward join — on a
sorted right frame, the quote with the greatest timestamp ≤ `t`, never a
later one — and a left quote with no matching right quote contributes no
opportunity. -/
theorem backward_temporal_join (df_right : List Quote)
    (hs : df_right.Sorted qLE) (t : Int) :
    (∀ qr, asofFind df_right t = some qr →
      qr ∈ df_right ∧ qr.timestamp ≤ t ∧
      ∀ q ∈ df_right, q.timestamp ≤ t → q.timestamp ≤ qr.timestamp) ∧
    (asofFind df_right t = none → ∀ q ∈ df_right, t < q.timestamp) ∧
    (∀ (exL exR : String) (c : ℚ) (ql : Quote), ql.timestamp = t →
      asofFind df_right t = none → oppOfRow df_right exL exR c ql = none) ∧
    (∀ (exL exR : String) (c : ℚ) (dfl : List Quote),
      findPairOpportunities dfl df_right exL exR c
        = dfl.filterMap (oppOfRow df_right exL exR c)) ∧
    (∀ (exL exR : String) (c : ℚ) (ql : Quote) (o : Opportunity),
      oppOfRow df_right exL exR c ql = some o →
      ∃ qr, asofFind df_right ql.timestamp = some qr ∧
        o.buy_price = qr.bestBid ∧ o.sell_price = ql.bestBid ∧
        o.timestamp = ql.timestamp) := by
  obtain ⟨h1, h2⟩ := asofFind_spec t df_right hs
  refine ⟨h1, h2, ?_, fun _ _ _ _ => rfl, ?_⟩
  · intro exL exR c ql hql hnone
    simp [oppOfRow, hql, hnone]
  · intro exL exR c ql o h
    obtain ⟨qr, hash, hts, _, _, hbp, _, hsp, _, _, _, _, _⟩ :=
      oppOfRow_some df_right exL exR c ql o h
    exact ⟨qr, hash, hbp, hsp, hts⟩

/-- Concrete quotes for witnesses. -/
def qA : Quote :=
  { exchange := "A", symbol := "ETHUSDT", timestamp := 1, bestBid := 101, bestAsk := 102 }

/-- Concrete quotes for witnesses. -/
def qB : Quote :=
  { exchange := "B", symbol := "ETHUSDT", timestamp := 0, bestBid := 100, bestAsk := 100 }

/-- Witness for `backward_temporal_join` on a concrete sorted frame. -/
theorem backward_temporal_join_witness :
    ([qB, qA].Sorted qLE) ∧
    asofFind [qB, qA] 0 = some qB ∧ qB ∈ [qB, qA] ∧ qB.timestamp ≤ 0 := by
  have hs : [qB, qA].Sorted qLE := by
    refine List.Sorted.cons ?_ ?_ <;> simp [qA, qB, qLE, List.Sorted]
  have h := (backward_temporal_join [qB, qA] hs 0).1 qB (by decide)
  exact ⟨hs, by decide, h.1, h.2.1⟩

theorem findPairOpportunities_right_nil (dfl : List Quote) (exL exR : String) (c : ℚ) :
    findPairOpportunities dfl [] exL exR c = [] := by
  refine List.filterMap_eq_nil.mpr ?_
  intro ql _
  rfl

/-- The detector's accumulator fold is the concatenation of all per-pair,
per-direction opportunity frames. -/
theorem detector_foldl (spread : List Quote) (c : ℚ) :
    ∀ (ps : List (String × String)) (acc : List Opportunity),
      ps.foldl (fun acc p =>
        let df_a := exchangeRows spread p.1
        let df_b := exchangeRows spread p.2
        if df_a = [] ∨ df_b = [] then acc
        else acc ++ findPairOpportunities df_a df_b p.1 p.2 c
          ++ findPairOpportunities df_b df_a p.2 p.1 c) acc
      = acc ++ (ps.map (fun p =>
          findPairOpportunities (exchangeRows spread p.1) (exchangeRows spread p.2) p.1 p.2 c
          ++ findPairOpportunities (exchangeRows spread p.2) (exchangeRows spread p.1) p.2 p.1 c)).flatten
  | [], acc => by simp
  | p :: ps, acc => by
    rw [List.foldl_cons, List.map_cons, List.flatten_cons]
    by_cases hg : exchangeRows spread p.1 = [] ∨ exchangeRows spread p.2 = []
    · have h1 : findPairOpportunities (exchangeRows spread p.1) (exchangeRows spread p.2)
          p.1 p.2 c = [] := by
        rcases hg with h | h
        · rw [h]; rfl
        · rw [h]; exact findPairOpportunities_right_nil _ _ _ _
      have h2 : findPairOpportunities (exchangeRows spread p.2) (exchangeRows spread p.1)
          p.2 p.1 c = [] := by
        rcases hg with h | h
        · rw [h]; exact findPairOpportunities_right_nil _ _ _ _
        · rw [h]; rfl
      simp only [if_pos hg]
      rw [detector_foldl spread c ps acc, h1, h2]
      simp
    · simp only [if_neg hg]
      rw [detector_foldl spread c ps _]
      simp [List.append_assoc]

/-- `find_maker_taker_opportunities` equals the union (concatenation, no
deduplication) over all unordered exchange pairs of the two directional
opportunity frames. -/
theorem findMakerTaker_eq_flatten (spread : List Quote) (c : ℚ) :
    findMakerTaker spread c
      = ((pairsOf (uniqueExchanges spread)).map (fun p =>
          findPairOpportunities (exchangeRows spread p.1) (exchangeRows spread p.2) p.1 p.2 c
          ++ findPairOpportunities (exchangeRows spread p.2) (exchangeRows spread p.1) p.2 p.1 c)).flatten := by
  unfold findMakerTaker
  by_cases h0 : spread = []
  · rw [if_pos h0]
    subst h0
    rfl
  · rw [if_neg h0]
    by_cases hlen : (uniqueExchanges spread).length < 2
    · rw [if_pos hlen]
      cases hu : uniqueExchanges spread with
      | nil => rfl
      | cons x xs =>
        cases xs with
        | nil => rfl
        | cons y ys =>
          rw [hu] at hlen
          simp only [List.length_cons] at hlen
          omega
    · rw [if_neg hlen]
      simpa using detector_foldl spread c (pairsOf (uniqueExchanges spread)) []

/-- C5: every opportunity the detector emits is built from a pair of quotes
whose bids are both strictly positive, carries
`profit_pct = (sell_price - buy_price) / buy_price * 100 - commission_pct`,
satisfies `profit_pct > 0`; and the output is the undeduplicated union over
every unordered exchange pair of the two directional searches. -/
theorem detector_characterization (spread : List Quote) (c : ℚ) :
    (∀ o ∈ findMakerTaker spread c,
      0 < o.buy_price ∧ 0 < o.sell_price ∧
      o.profit_pct = (o.sell_price - o.buy_price) / o.buy_price * 100 - c ∧
      0 < o.profit_pct) ∧
    findMakerTaker spread c
      = ((pairsOf (uniqueExchanges spread)).map (fun p =>
          findPairOpportunities (exchangeRows spread p.1) (exchangeRows spread p.2) p.1 p.2 c
          ++ findPairOpportunities (exchangeRows spread p.2) (exchangeRows spread p.1) p.2 p.1 c)).flatten := by
  refine ⟨?_, findMakerTaker_eq_flatten spread c⟩
  intro o ho
  rw [findMakerTaker_eq_flatten, List.mem_flatten] at ho
  obtain ⟨l, hl, hol⟩ := ho
  rw [List.mem_map] at hl
  obtain ⟨p, _, rfl⟩ := hl
  have key : ∀ (dfl dfr : List Quote) (exL exR : String),
      o ∈ findPairOpportunities dfl dfr exL exR c →
      0 < o.buy_price ∧ 0 < o.sell_price ∧
      o.profit_pct = (o.sell_price - o.buy_price) / o.buy_price * 100 - c ∧
      0 < o.profit_pct := by
    intro dfl dfr exL exR hmem
    rw [findPairOpportunities, List.mem_filterMap] at hmem
    obtain ⟨ql, _, hq⟩ := hmem
    obtain ⟨qr, _, _, _, _, hbp, _, hsp, hpp, hb1, hb2, _, hp0⟩ :=
      oppOfRow_some dfr exL exR c ql o hq
    refine ⟨hbp ▸ hb2, hsp ▸ hb1, ?_, hp0⟩
    rw [hpp, hbp, hsp]
  rcases List.mem_append.mp hol with h | h
  · exact key _ _ _ _ h
  · exact key _ _ _ _ h

/-- Concrete spread for the detector witness. -/
def spreadW : List Quote := [qA, qB]

/-- The opportunity the detector emits on `spreadW` at commission 1/2 %. -/
def oW : Opportunity :=
  { timestamp := 1, symbol := "ETHUSDT", buy_exchange := "B", buy_price := 100,
    sell_exchange := "A", sell_price := 101, profit_pct := 1/2 }

/-- Witness for `detector_characterization` on a concrete spread. -/
theorem detector_characterization_witness :
    (oW ∈ findMakerTaker spreadW (1/2)) ∧ 0 < oW.buy_price ∧ 0 < oW.sell_price ∧
    oW.profit_pct = (oW.sell_price - oW.buy_price) / oW.buy_price * 100 - 1/2 ∧
    0 < oW.profit_pct := by
  have hu : uniqueExchanges spreadW = ["A", "B"] := by decide
  have ha : exchangeRows spreadW "A" = [qA] := by decide
  have hb : exchangeRows spreadW "B" = [qB] := by decide
  have hfp : findPairOpportunities [qA] [qB] "A" "B" (1/2) = [oW] := by
    simp only [findPairOpportunities, List.filterMap, oppOfRow, asofFind,
      List.foldl, qA, qB, oW]
    norm_num
  have hfp2 : findPairOpportunities [qB] [qA] "B" "A" (1/2) = [] := by
    simp only [findPairOpportunities, List.filterMap, oppOfRow, asofFind,
      List.foldl, qA, qB]
    norm_num
  have heval : findMakerTaker spreadW (1/2) = [oW] := by
    rw [findMakerTaker_eq_flatten, hu]
    simp only [pairsOf, List.map_cons, List.map_nil, List.flatten_cons,
      List.flatten_nil, List.append_nil, List.nil_append, ha, hb]
    rw [hfp, hfp2]
    simp
  have hm : oW ∈ findMakerTaker spreadW (1/2) := by
    rw [heval]; exact List.mem_singleton.mpr rfl
  exact ⟨hm, (detector_characterization spreadW (1/2)).1 oW hm⟩

/-- Funding state for the threshold-monotonicity counterexample: exchange X
holds 100 USDT; exchanges Y, Z and W hold 1, 1/2 and 1/2 ETH. -/
def fundingC7 : Balances := fun e c =>
  if e = "X" ∧ c = "USDT" then 100
  else if e = "Y" ∧ c = "ETH" then 1
  else if e = "Z" ∧ c = "ETH" then 1/2
  else if e = "W" ∧ c = "ETH" then 1/2
  else 0

/-- Low-profit opportunity (profit 0.18 %) that only the lower threshold
admits; it fully drains X's USDT. -/
def o1 : Opportunity :=
  { timestamp := 1, symbol := "ETHUSDT", buy_exchange := "X", buy_price := 100,
    sell_exchange := "Y", sell_price := 501/5, profit_pct := 9/50 }

/-- High-profit opportunity (0.38 %) buying on X, selling on Z. -/
def o2 : Opportunity :=
  { timestamp := 2, symbol := "ETHUSDT", buy_exchange := "X", buy_price := 100,
    sell_exchange := "Z", sell_price := 502/5, profit_pct := 19/50 }

/-- High-profit opportunity (0.38 %) buying on X, selling on W. -/
def o3 : Opportunity :=
  { timestamp := 3, symbol := "ETHUSDT", buy_exchange := "X", buy_price := 100,
    sell_exchange := "W", sell_price := 502/5, profit_pct := 19/50 }

/-- The opportunity list of the counterexample (profits are consistent with
`(sell - buy) / buy * 100 - commission` at commission 0.02). -/
def cexOpps : List Opportunity := [o1, o2, o3]

/-- C7 counterexample: with the configured thresholds 0.1 and 0.25 and the
configured commission 0.02, one fixed opportunity list and one fixed funding
state, the replay at the *higher* threshold executes 2 trades while the
replay at the lower threshold executes only 1: the low-profit opportunity,
admitted only at the lower threshold, drains X's quote wallet and blocks the
two later opportunities. -/
theorem threshold_monotonicity_cex :
    (1:ℚ)/10 < 1/4 ∧
    (runInstance (1/10) cexOpps fundingC7 "ETHUSDT" (1/50)).2 = 1 ∧
    (runInstance (1/4) cexOpps fundingC7 "ETHUSDT" (1/50)).2 = 2 := by
  have hbase : baseOf "ETHUSDT" = "ETH" := by decide
  have husdt : endsWithUSDT "ETHUSDT" = true := by decide
  have nYX : ("Y":String) ≠ "X" := by decide
  have nXY : ("X":String) ≠ "Y" := by decide
  have nZX : ("Z":String) ≠ "X" := by decide
  have nXZ : ("X":String) ≠ "Z" := by decide
  have nZY : ("Z":String) ≠ "Y" := by decide
  have nWX : ("W":String) ≠ "X" := by decide
  have nWY : ("W":String) ≠ "Y" := by decide
  have nWZ : ("W":String) ≠ "Z" := by decide
  have nUE : ("USDT":String) ≠ "ETH" := by decide
  have nEU : ("ETH":String) ≠ "USDT" := by decide
  refine ⟨by norm_num, ?_, ?_⟩
  · -- θ = 1/10 : the list is [o1, o2, o3]; o1 executes, o2 and o3 are skipped
    have hv : validOpportunities (1/10) cexOpps = [o1, o2, o3] := by
      have hf : cexOpps.filter (fun o => (1:ℚ)/10 ≤ o.profit_pct) = [o1, o2, o3] := by
        rw [cexOpps,
          List.filter_cons_of_pos (by simp only [o1, decide_eq_true_eq]; norm_num),
          List.filter_cons_of_pos (by simp only [o2, decide_eq_true_eq]; norm_num),
          List.filter_cons_of_pos (by simp only [o3, decide_eq_true_eq]; norm_num),
          List.filter_nil]
      rw [validOpportunities, hf]
      simp [List.insertionSort, List.orderedInsert, tsLE, o1, o2, o3,
        (show (1:Int) ≤ 2 by decide), (show (2:Int) ≤ 3 by decide),
        (show (1:Int) ≤ 3 by decide)]
    have amt1 : tradeAmount fundingC7 "ETHUSDT" o1 = 1 := by
      norm_num [tradeAmount, o1, fundingC7, hbase, min_def, nYX, nEU]
    have hs1 : stepCount (1/50) "ETHUSDT" (fundingC7, 0) o1
        = ((simulate_trade fundingC7 "X" "Y" "ETHUSDT" 100 (501/5) 1 (1/50)).2, 1) := by
      rw [stepCount_exec _ _ _ _ _ (by rw [amt1]; norm_num [eps]), amt1]
      simp [o1, husdt]
    have c1X : (simulate_trade fundingC7 "X" "Y" "ETHUSDT" 100 (501/5) 1 (1/50)).2 "X" "USDT"
        = 0 := by
      rw [simulate_trade_apply _ _ _ _ _ _ _ _ husdt]
      norm_num [fundingC7, hbase, nXY, nUE]
    have c1Z : (simulate_trade fundingC7 "X" "Y" "ETHUSDT" 100 (501/5) 1 (1/50)).2 "Z" "ETH"
        = 1/2 := by
      rw [simulate_trade_apply _ _ _ _ _ _ _ _ husdt]
      norm_num [fundingC7, hbase, nZX, nZY, nEU]
    have c1W : (simulate_trade fundingC7 "X" "Y" "ETHUSDT" 100 (501/5) 1 (1/50)).2 "W" "ETH"
        = 1/2 := by
      rw [simulate_trade_apply _ _ _ _ _ _ _ _ husdt]
      norm_num [fundingC7, hbase, nWX, nWY, nEU]
    have amt2 : tradeAmount
        ((simulate_trade fundingC7 "X" "Y" "ETHUSDT" 100 (501/5) 1 (1/50)).2)
        "ETHUSDT" o2 = 0 := by
      norm_num [tradeAmount, o2, hbase, c1X, c1Z, min_def]
    have amt3 : tradeAmount
        ((simulate_trade fundingC7 "X" "Y" "ETHUSDT" 100 (501/5) 1 (1/50)).2)
        "ETHUSDT" o3 = 0 := by
      norm_num [tradeAmount, o3, hbase, c1X, c1W, min_def]
    have hs2 := stepCount_skip (1/50) "ETHUSDT"
      ((simulate_trade fundingC7 "X" "Y" "ETHUSDT" 100 (501/5) 1 (1/50)).2) 1 o2
      (by rw [amt2]; norm_num [eps])
    have hs3 := stepCount_skip (1/50) "ETHUSDT"
      ((simulate_trade fundingC7 "X" "Y" "ETHUSDT" 100 (501/5) 1 (1/50)).2) 1 o3
      (by rw [amt3]; norm_num [eps])
    rw [runInstance, hv, simulateTradesForInstance,
      List.foldl_cons, hs1, List.foldl_cons, hs2, List.foldl_cons, hs3, List.foldl_nil]
  · -- θ = 1/4 : the list is [o2, o3]; both execute
    have hv : validOpportunities (1/4) cexOpps = [o2, o3] := by
      have hf : cexOpps.filter (fun o => (1:ℚ)/4 ≤ o.profit_pct) = [o2, o3] := by
        rw [cexOpps,
          List.filter_cons_of_neg (by simp only [o1, decide_eq_true_eq]; norm_num),
          List.filter_cons_of_pos (by simp only [o2, decide_eq_true_eq]; norm_num),
          List.filter_cons_of_pos (by simp only [o3, decide_eq_true_eq]; norm_num),
          List.filter_nil]
      rw [validOpportunities, hf]
      simp [List.insertionSort, List.orderedInsert, tsLE, o2, o3,
        (show (2:Int) ≤ 3 by decide)]
    have amt1 : tradeAmount fundingC7 "ETHUSDT" o2 = 1/2 := by
      norm_num [tradeAmount, o2, fundingC7, hbase, min_def, nZX, nZY, nEU]
    have hs1 : stepCount (1/50) "ETHUSDT" (fundingC7, 0) o2
        = ((simulate_trade fundingC7 "X" "Z" "ETHUSDT" 100 (502/5) (1/2) (1/50)).2, 1) := by
      rw [stepCount_exec _ _ _ _ _ (by rw [amt1]; norm_num [eps]), amt1]
      simp [o2, husdt]
    have c2X : (simulate_trade fundingC7 "X" "Z" "ETHUSDT" 100 (502/5) (1/2) (1/50)).2 "X" "USDT"
        = 50 := by
      rw [simulate_trade_apply _ _ _ _ _ _ _ _ husdt]
      norm_num [fundingC7, hbase, nXZ, nUE]
    have c2W : (simulate_trade fundingC7 "X" "Z" "ETHUSDT" 100 (502/5) (1/2) (1/50)).2 "W" "ETH"
        = 1/2 := by
      rw [simulate_trade_apply _ _ _ _ _ _ _ _ husdt]
      norm_num [fundingC7, hbase, nWX, nWY, nWZ, nEU]
    have amt2 : tradeAmount
        ((simulate_trade fundingC7 "X" "Z" "ETHUSDT" 100 (502/5) (1/2) (1/50)).2)
        "ETHUSDT" o3 = 1/2 := by
      norm_num [tradeAmount, o3, hbase, c2X, c2W, min_def]
    have hs2 : stepCount (1/50) "ETHUSDT"
        ((simulate_trade fundingC7 "X" "Z" "ETHUSDT" 100 (502/5) (1/2) (1/50)).2, 1) o3
        = ((simulate_trade
            ((simulate_trade fundingC7 "X" "Z" "ETHUSDT" 100 (502/5) (1/2) (1/50)).2)
            "X" "W" "ETHUSDT" 100 (502/5) (1/2) (1/50)).2, 2) := by
      rw [stepCount_exec _ _ _ _ _ (by rw [amt2]; norm_num [eps]), amt2]
      simp [o3, husdt]
    rw [runInstance, hv, simulateTradesForInstance,
      List.foldl_cons, hs1, List.foldl_cons, hs2, List.foldl_nil]

/-- Filtering with a stronger predicate yields at most as many elements. -/
theorem length_filter_le_of_imp {α : Type} (p q : α → Bool)
    (hpq : ∀ a, p a = true → q a = true) :
    ∀ l : List α, (l.filter p).length ≤ (l.filter q).length
  | [] => le_refl _
  | a :: l => by
    by_cases hp : p a = true
    · rw [List.filter_cons_of_pos hp, List.filter_cons_of_pos (hpq a hp)]
      simpa using length_filter_le_of_imp p q hpq l
    · rw [List.filter_cons_of_neg (by simpa using hp)]
      by_cases hq : q a = true
      · rw [List.filter_cons_of_pos hq]
        exact le_trans (length_filter_le_of_imp p q hpq l) (by simp)
      · rw [List.filter_cons_of_neg (by simpa using hq)]
        exact length_filter_le_of_imp p q hpq l

/-- C7 amended: raising the threshold can only shrink the *replayed*
opportunity list (the filter is monotone), but the number of *executed*
trades is not monotone in the threshold — see the counterexample where the
higher threshold executes strictly more trades. -/
theorem threshold_filter_monotone (opps : List Opportunity) (t1 t2 : ℚ)
    (h : t1 ≤ t2) :
    (validOpportunities t2 opps).length ≤ (validOpportunities t1 opps).length := by
  have h2 : (validOpportunities t2 opps).length
      = (opps.filter (fun o => t2 ≤ o.profit_pct)).length :=
    (List.perm_insertionSort tsLE _).length_eq
  have h1 : (validOpportunities t1 opps).length
      = (opps.filter (fun o => t1 ≤ o.profit_pct)).length :=
    (List.perm_insertionSort tsLE _).length_eq
  rw [h1, h2]
  refine length_filter_le_of_imp _ _ ?_ opps
  intro o ho
  simp only [decide_eq_true_eq] at ho ⊢
  exact le_trans h ho

/-- Witness for `threshold_filter_monotone` at the counterexample's data. -/
theorem threshold_filter_monotone_witness :
    ((1:ℚ)/10 ≤ 1/4) ∧
    (validOpportunities (1/4) cexOpps).length
      ≤ (validOpportunities (1/10) cexOpps).length :=
  ⟨by norm_num, threshold_filter_monotone cexOpps (1/10) (1/4) (by norm_num)⟩

/-- A recorded trade row (the columns of `StatisticsCollector.record_trade`). -/
structure TradeRecord where
  profit_threshold : ℚ
  symbol : String
  buy_exchange : String
  sell_exchange : String
  net_profit_pct : ℚ
  amount_usdt : ℚ
  profit_usdt : ℚ
  deriving DecidableEq, Repr

/-- `StatisticsCollector.record_trade`: computes
`profit_usdt = amount_usdt * (net_profit_pct / 100)` and appends the row to
the collected frame. -/
def record_trade (trades : List TradeRecord) (profit_threshold : ℚ)
    (symbol buy_exchange sell_exchange : String)
    (net_profit_pct amount_usdt : ℚ) : List TradeRecord :=
  trades ++ [{ profit_threshold := profit_threshold, symbol := symbol,
               buy_exchange := buy_exchange, sell_exchange := sell_exchange,
               net_profit_pct := net_profit_pct, amount_usdt := amount_usdt,
               profit_usdt := amount_usdt * (net_profit_pct / 100) }]

/-- The normalized exchange-pair key of one trade, as built by
`get_results`: `(min_horizontal, max_horizontal)` of the two exchange names
in lexicographic string order. -/
def pairKey (t : TradeRecord) : String × String :=
  (min t.buy_exchange t.sell_exchange, max t.buy_exchange t.sell_exchange)

/-- The rows of one `(symbol, threshold)` group of `get_results`. -/
def tradesFor (trades : List TradeRecord) (symbol : String) (threshold : ℚ) :
    List TradeRecord :=
  (trades.filter (fun t => t.symbol = symbol)).filter
    (fun t => t.profit_threshold = threshold)

/-- One bucket of the `pair_counts` dictionary of `get_results`: the number
of group rows whose normalized exchange pair is `k`. -/
def pairCount (trades : List TradeRecord) (symbol : String) (threshold : ℚ)
    (k : String × String) : Nat :=
  ((tradesFor trades symbol threshold).map pairKey).count k

/-- `get_results`: `total_trades`. -/
def totalTrades (trades : List TradeRecord) : Nat := trades.length

/-- `get_results`: `total_profit`. -/
def totalProfit (trades : List TradeRecord) : ℚ :=
  (trades.map (fun t => t.profit_usdt)).sum

/-- `get_results`: per-symbol trade count. -/
def symbolTrades (trades : List TradeRecord) (symbol : String) : Nat :=
  (trades.filter (fun t => t.symbol = symbol)).length

/-- `get_results`: per-symbol profit. -/
def symbolProfit (trades : List TradeRecord) (symbol : String) : ℚ :=
  ((trades.filter (fun t => t.symbol = symbol)).map (fun t => t.profit_usdt)).sum

/-- `get_results`: per-(symbol, threshold) trade count. -/
def thresholdTrades (trades : List TradeRecord) (symbol : String) (threshold : ℚ) : Nat :=
  (tradesFor trades symbol threshold).length

/-- `get_results`: per-(symbol, threshold) profit. -/
def thresholdProfit (trades : List TradeRecord) (symbol : String) (threshold : ℚ) : ℚ :=
  ((tradesFor trades symbol threshold).map (fun t => t.profit_usdt)).sum

/-- C8: the pair bucket is keyed by the lexicographically sorted exchange
pair, so a buy-A/sell-B trade and a buy-B/sell-A trade at the same symbol and
threshold share one key, and recording both raises that single bucket by 2. -/
theorem pair_normalization (trades : List TradeRecord) (sym : String) (θ : ℚ)
    (tAB tBA : TradeRecord)
    (hsA : tAB.symbol = sym) (hsB : tBA.symbol = sym)
    (htA : tAB.profit_threshold = θ) (htB : tBA.profit_threshold = θ)
    (hbuy : tBA.buy_exchange = tAB.sell_exchange)
    (hsell : tBA.sell_exchange = tAB.buy_exchange) :
    pairKey tAB = pairKey tBA ∧
    pairCount (trades ++ [tAB] ++ [tBA]) sym θ (pairKey tAB)
      = pairCount trades sym θ (pairKey tAB) + 2 := by
  have hkey : pairKey tAB = pairKey tBA := by
    simp [pairKey, hbuy, hsell]
    exact ⟨min_comm _ _, max_comm _ _⟩
  refine ⟨hkey, ?_⟩
  simp only [pairCount, tradesFor, List.filter_append, List.map_append,
    List.count_append]
  have fA : List.filter (fun t => decide (t.profit_threshold = θ))
      (List.filter (fun t => decide (t.symbol = sym)) [tAB]) = [tAB] := by
    simp [hsA, htA]
  have fB : List.filter (fun t => decide (t.profit_threshold = θ))
      (List.filter (fun t => decide (t.symbol = sym)) [tBA]) = [tBA] := by
    simp [hsB, htB]
  rw [fA, fB]
  simp [hkey]

/-- Concrete trade records for witnesses: the same exchanges in both
directions. -/
def tW1 : TradeRecord :=
  { profit_threshold := 1/10, symbol := "ETHUSDT", buy_exchange := "A",
    sell_exchange := "B", net_profit_pct := 1, amount_usdt := 100,
    profit_usdt := 1 }

/-- The opposite-direction twin of `tW1`. -/
def tW2 : TradeRecord :=
  { profit_threshold := 1/10, symbol := "ETHUSDT", buy_exchange := "B",
    sell_exchange := "A", net_profit_pct := 1, amount_usdt := 100,
    profit_usdt := 1 }

/-- Witness for `pair_normalization` at a concrete pair of trades. -/
theorem pair_normalization_witness :
    (tW1.symbol = "ETHUSDT") ∧ (tW2.buy_exchange = tW1.sell_exchange) ∧
    pairKey tW1 = pairKey tW2 ∧
    pairCount ([] ++ [tW1] ++ [tW2]) "ETHUSDT" (1/10) (pairKey tW1)
      = pairCount [] "ETHUSDT" (1/10) (pairKey tW1) + 2 := by
  have h := pair_normalization [] "ETHUSDT" (1/10) tW1 tW2 rfl rfl rfl rfl rfl rfl
  exact ⟨rfl, rfl, h.1, h.2⟩

/-- The arguments of one `record_trade` call. -/
structure RecordCall where
  profit_threshold : ℚ
  symbol : String
  buy_exchange : String
  sell_exchange : String
  net_profit_pct : ℚ
  amount_usdt : ℚ
  deriving DecidableEq, Repr

/-- The row one `record_trade` call appends. -/
def rowOfCall (r : RecordCall) : TradeRecord :=
  { profit_threshold := r.profit_threshold, symbol := r.symbol,
    buy_exchange := r.buy_exchange, sell_exchange := r.sell_exchange,
    net_profit_pct := r.net_profit_pct, amount_usdt := r.amount_usdt,
    profit_usdt := r.amount_usdt * (r.net_profit_pct / 100) }

/-- Replay a sequence of `record_trade` calls against a fresh collector. -/
def applyRecordCalls (calls : List RecordCall) : List TradeRecord :=
  calls.foldl (fun acc r => record_trade acc r.profit_threshold r.symbol
    r.buy_exchange r.sell_exchange r.net_profit_pct r.amount_usdt) []

/-- A sequence of `record_trade` calls appends exactly one row per call. -/
theorem applyRecordCalls_from (calls : List RecordCall) :
    ∀ init : List TradeRecord,
      calls.foldl (fun acc r => record_trade acc r.profit_threshold r.symbol
        r.buy_exchange r.sell_exchange r.net_profit_pct r.amount_usdt) init
      = init ++ calls.map rowOfCall := by
  induction calls with
  | nil => intro init; simp
  | cons r calls ih =>
    intro init
    rw [List.foldl_cons, ih, List.map_cons]
    simp [record_trade, rowOfCall]

/-- C9: for any two sequences of `record_trade` calls that are permutations
of each other, every aggregate `get_results` computes — total count, total
profit, per-symbol, per-(symbol, threshold) and per-pair values — is the
same: the report is a function of the multiset of recorded trades only. -/
theorem results_order_independent (calls1 calls2 : List RecordCall)
    (h : List.Perm calls1 calls2) :
    totalTrades (applyRecordCalls calls1) = totalTrades (applyRecordCalls calls2) ∧
    totalProfit (applyRecordCalls calls1) = totalProfit (applyRecordCalls calls2) ∧
    (∀ sym, symbolTrades (applyRecordCalls calls1) sym
        = symbolTrades (applyRecordCalls calls2) sym ∧
      symbolProfit (applyRecordCalls calls1) sym
        = symbolProfit (applyRecordCalls calls2) sym) ∧
    (∀ sym θ, thresholdTrades (applyRecordCalls calls1) sym θ
        = thresholdTrades (applyRecordCalls calls2) sym θ ∧
      thresholdProfit (applyRecordCalls calls1) sym θ
        = thresholdProfit (applyRecordCalls calls2) sym θ) ∧
    (∀ sym θ k, pairCount (applyRecordCalls calls1) sym θ k
        = pairCount (applyRecordCalls calls2) sym θ k) := by
  have hp : List.Perm (applyRecordCalls calls1) (applyRecordCalls calls2) := by
    rw [applyRecordCalls, applyRecordCalls, applyRecordCalls_from,
      applyRecordCalls_from]
    simpa using h.map rowOfCall
  refine ⟨hp.length_eq, (hp.map _).sum_eq, ?_, ?_, ?_⟩
  · intro sym
    exact ⟨(hp.filter _).length_eq, ((hp.filter _).map _).sum_eq⟩
  · intro sym θ
    exact ⟨((hp.filter _).filter _).length_eq,
      (((hp.filter _).filter _).map _).sum_eq⟩
  · intro sym θ k
    simp only [pairCount, tradesFor, List.count]
    exact (((hp.filter _).filter _).map _).countP_eq _

/-- A concrete `record_trade` call for witnesses. -/
def cW1 : RecordCall :=
  { profit_threshold := 1/10, symbol := "ETHUSDT", buy_exchange := "A",
    sell_exchange := "B", net_profit_pct := 1, amount_usdt := 100 }

/-- A second concrete `record_trade` call (opposite direction). -/
def cW2 : RecordCall :=
  { profit_threshold := 1/10, symbol := "ETHUSDT", buy_exchange := "B",
    sell_exchange := "A", net_profit_pct := 1, amount_usdt := 100 }

/-- Witness for `results_order_independent` on two permuted call sequences. -/
theorem results_order_independent_witness :
    List.Perm [cW1, cW2] [cW2, cW1] ∧
    totalProfit (applyRecordCalls [cW1, cW2])
      = totalProfit (applyRecordCalls [cW2, cW1]) ∧
    pairCount (applyRecordCalls [cW1, cW2]) "ETHUSDT" (1/10) (pairKey tW1)
      = pairCount (applyRecordCalls [cW2, cW1]) "ETHUSDT" (1/10) (pairKey tW1) := by
  have hp : List.Perm [cW1, cW2] [cW2, cW1] := List.Perm.swap cW2 cW1 []
  have h := results_order_independent [cW1, cW2] [cW2, cW1] hp
  exact ⟨hp, h.2.1, h.2.2.2.2 "ETHUSDT" (1/10) (pairKey tW1)⟩

/-- The state a `BalanceManager` constructor produces. -/
structure BMState where
  exchanges : List String
  symbol : String
  base_currency : String
  initial_balance : ℚ
  balances : Balances

/-- The wallet dict literal `{'USDT': initial, base_currency: 0.0}` of
`_initialize_wallets` (on a key collision the later entry wins, as in a
Python dict literal). -/
def initWallet (initial : ℚ) (base_currency : String) : String → ℚ :=
  fun c => if c = base_currency then 0 else if c = "USDT" then initial else 0

/-- `_initialize_wallets`: one wallet per listed exchange; an exchange that
was never listed reads as all-zero, matching the `.get(..., 0)` reads of the
replay loop. -/
def initializeWallets (exchanges : List String) (initial : ℚ)
    (base_currency : String) : Balances :=
  exchanges.foldl
    (fun bs ex => fun e c => if e = ex then initWallet initial base_currency c else bs e c)
    (fun _ _ => 0)

/-- `BalanceManager.__init__`: stores the configuration and initializes the
wallets.  The Python constructor contains no validation and no `raise`
statement on any path; the `Except` result type records whether construction
can surface a hard error — it never does. -/
def balanceManagerInit (exchanges : List String) (symbol : String)
    (initial_balance_usdt : ℚ) : Except String BMState :=
  Except.ok
    { exchanges := exchanges, symbol := symbol,
      base_currency := baseOf symbol,
      initial_balance := initial_balance_usdt,
      balances := initializeWallets exchanges initial_balance_usdt (baseOf symbol) }

/-- C10 counterexample: constructing a `BalanceManager` with an *empty*
exchange list does not fail — the constructor performs no validation and
silently returns a ledger with no wallets, contradicting the claimed hard
error at construction time. -/
theorem fail_fast_cex :
    (balanceManagerInit [] "ETHUSDT" 1000).isOk = true := rfl

/-- C10 amended: construction never fails: for every exchange list (the empty
one included) and every configuration the constructor returns a ledger; the
empty exchange list yields an all-zero (walletless) ledger, and a negative
commission is likewise accepted without error by the trade path (commission
is not a construction parameter at all). -/
theorem construction_never_fails (exchanges : List String) (symbol : String)
    (init : ℚ) :
    (balanceManagerInit exchanges symbol init).isOk = true ∧
    (∃ s, balanceManagerInit [] symbol init = Except.ok s ∧
      ∀ e c, s.balances e c = 0) ∧
    (simulate_trade (fun _ _ => 100) "A" "B" "ETHUSDT" 10 11 1 (-5)).1 = true := by
  refine ⟨rfl, ⟨_, rfl, fun e c => rfl⟩, rfl⟩

end Arb
